import Mathlib

/-!
Verification of the infinite_state_machine repository core.

Shallow embedding of the C sources:
- `src/src/infinite_state.c` / `src/unnamed/part_001`: `infinite_state_topology`
- `src/unnamed/part_000` (infinite_state_machine.c): `init`, `goto`, `jump`,
  `in`, `enter`, `exit`, `push`, `pop`, `top`
- `src/inc/infinite_state.h`, `src/inc/infinite_state_machine.h`: data model.

Modelling conventions:
- C states are pointers; we model a pointer as a `Nat` identifier and a nullable
  pointer as `Option Nat`.  The static state table (each state's `super` parent
  pointer and whether its `enter`/`exit` callback function pointers are
  non-NULL) is an environment `Env : Nat → infinite_state`.
- Callbacks in the tests only observe transitions (printing), so a callback is
  modelled as a recorder: whenever the C code would invoke a non-NULL
  `enter`/`exit` function pointer, the embedding appends an `event` to a trace.
- The machine stack is `states : List (Option Nat)` (the C array
  `struct infinite_state *states[INFINITE_STATE_MACHINE_MAX_DEPTH]`, always of
  length `MAX_DEPTH`) together with `depth : Nat` (the C `int depth`, which the
  operations keep in `[0, MAX_DEPTH]`).
- The C `while` loops inside `goto` are compiled to structurally recursive
  functions with an explicit iteration budget (fuel); `goto` passes the same
  bounds that limit the C loops (`machine->depth` iterations for the common
  prefix scan and the exit loop, `jump.depth` for the enter loop), which are
  sufficient because each C loop iteration strictly advances its counter.
  Structural recursion keeps every definition kernel-reducible.
- `infinite_state_machine_push` returns `none` for the C `-ENOMEM` path.  The
  enter loop additionally counts how many iterations hit that path (the C code
  discards the error code; the count makes the branch observable so that its
  reachability can be settled).
-/

/-- Maximum depth of any infinite state machine
(`INFINITE_STATE_MACHINE_MAX_DEPTH`, default 7). -/
def MAX_DEPTH : Nat := 7

/-- A state (`struct infinite_state`): parent pointer `super`, and whether the
`enter` and `exit` callback function pointers are non-NULL. -/
structure infinite_state where
  super : Option Nat
  enter : Bool
  exit : Bool
deriving DecidableEq

/-- The static state table: resolves a state identifier (pointer) to its
descriptor. -/
abbrev Env := Nat → infinite_state

/-- A callback invocation observed during a transition. -/
inductive event where
  | enter (s : Nat)
  | exit (s : Nat)
deriving DecidableEq

/-- The machine (`struct infinite_state_machine`): an array of `MAX_DEPTH`
nullable state pointers plus the current depth. -/
structure infinite_state_machine where
  states : List (Option Nat)
  depth : Nat
deriving DecidableEq

/-- C source (infinite_state.c):
`infinite_state_topology(state, depth, topology)` — if `state == NULL || depth
== 0` return the cursor unchanged; otherwise recurse on `state->super` with
`depth - 1`, then append `state`.  The returned list is the sequence of states
written (root-to-leaf); its length is the cursor offset the C code returns.
The `DEBUG`-only duplicate check is compiled out (release build). -/
def infinite_state_topology (env : Env) : Option Nat → Nat → List Nat
  | none, _ => []
  | some _, 0 => []
  | some s, d + 1 => infinite_state_topology env (env s).super d ++ [s]

/-- Iterated parent pointer: `superChain env os n` is the state reached from
`os` by following `super` exactly `n` times (`none` when the chain ends
first).  Used to state claims about ancestor chains. -/
def superChain (env : Env) : Option Nat → Nat → Option Nat
  | os, 0 => os
  | none, _ + 1 => none
  | some s, n + 1 => superChain env (env s).super n

/-- C source: `infinite_state_machine_init` — depth 0, all slots cleared. -/
def infinite_state_machine_init : infinite_state_machine :=
  { states := List.replicate MAX_DEPTH none, depth := 0 }

/-- C source: `infinite_state_machine_push` — fails (returns `-ENOMEM`,
modelled as `none`) when `depth == MAX_DEPTH`, otherwise stores the state at
index `depth` and increments `depth`. -/
def infinite_state_machine_push (m : infinite_state_machine) (s : Nat) :
    Option infinite_state_machine :=
  if m.depth = MAX_DEPTH then none
  else some { states := m.states.set m.depth (some s), depth := m.depth + 1 }

/-- C source: `infinite_state_machine_pop` — returns `NULL` when empty,
otherwise decrements `depth`, clears the vacated slot and returns the state
that was stored there. -/
def infinite_state_machine_pop (m : infinite_state_machine) :
    infinite_state_machine × Option Nat :=
  if m.depth = 0 then (m, none)
  else ({ states := m.states.set (m.depth - 1) none, depth := m.depth - 1 },
        m.states.getD (m.depth - 1) none)

/-- C source: `infinite_state_machine_top` — the state at `depth - 1`, or
`NULL` when `depth == 0`. -/
def infinite_state_machine_top (m : infinite_state_machine) : Option Nat :=
  if m.depth = 0 then none else m.states.getD (m.depth - 1) none

/-- C source: `infinite_state_machine_in` — `-EINVAL` (= -22) when the machine
or state argument is `NULL`; otherwise a linear scan of slots `0..depth-1`,
returning 1 when found and 0 otherwise. -/
def infinite_state_machine_in (machine : Option infinite_state_machine)
    (state : Option Nat) : Int :=
  match machine, state with
  | some m, some s =>
      if (List.range m.depth).any
          (fun i => decide (m.states.getD i none = some s)) then 1 else 0
  | _, _ => -22

/-- C source: `infinite_state_machine_enter` — push the state; on push failure
propagate the error (`false`, no callback).  On success run the enter action
(recorded iff the state's `enter` function pointer is non-NULL). -/
def infinite_state_machine_enter (env : Env) (m : infinite_state_machine)
    (s : Nat) : infinite_state_machine × List event × Bool :=
  match infinite_state_machine_push m s with
  | none => (m, [], false)
  | some m' => (m', if (env s).enter then [event.enter s] else [], true)

/-- C source: `infinite_state_machine_exit` — pop; when the popped value is
`NULL` return `-EINVAL` (`false`); otherwise run the exit action (recorded iff
the state's `exit` function pointer is non-NULL). -/
def infinite_state_machine_exit (env : Env) (m : infinite_state_machine) :
    infinite_state_machine × List event × Bool :=
  match infinite_state_machine_pop m with
  | (m', none) => (m', [], false)
  | (m', some s) => (m', if (env s).exit then [event.exit s] else [], true)

/-- The write of the topology vector into the machine's state array performed
by `infinite_state_machine_jump`: `infinite_state_topology` stores the listed
states at consecutive slots starting at the given index. -/
def write_states : List (Option Nat) → Nat → List Nat → List (Option Nat)
  | ss, _, [] => ss
  | ss, i, s :: t => write_states (ss.set i (some s)) (i + 1) t

/-- C source: `infinite_state_machine_jump` — `init` the machine, then
`machine->depth = infinite_state_topology(state, MAX_DEPTH, machine->states) -
machine->states` (the topology is written into the cleared array; the depth is
the returned cursor offset, i.e. the number of states written).  No callback
is invoked (the function only calls `init` and the topology walk). -/
def infinite_state_machine_jump (env : Env) (state : Option Nat) :
    infinite_state_machine :=
  let t := infinite_state_topology env state MAX_DEPTH
  { states := write_states infinite_state_machine_init.states 0 t,
    depth := t.length }

/-- The common prefix scan in `goto`:
`while (depth < machine->depth && depth < jump.depth && machine->states[depth]
== jump.states[depth]) depth++;`.  The first argument is fuel bounding the
iterations; `goto` passes `machine->depth`, an upper bound on the number of
iterations (the loop stops once `i` reaches `machine->depth`). -/
def scanAux (as bs : List (Option Nat)) (ad bd : Nat) : Nat → Nat → Nat
  | 0, i => i
  | fuel + 1, i =>
    if i < ad ∧ i < bd ∧ as.getD i none = bs.getD i none
    then scanAux as bs ad bd fuel (i + 1)
    else i

/-- The exit phase of `goto`:
`while (machine->depth > depth) infinite_state_machine_exit(machine);`.
The first argument is fuel; `goto` passes the machine's depth at loop entry,
an upper bound on the iterations (each exit decrements `depth`).  The `Bool`
result of `infinite_state_machine_exit` is discarded, as in the C code. -/
def exitsAux (env : Env) : Nat → infinite_state_machine → Nat →
    infinite_state_machine × List event
  | 0, m, _ => (m, [])
  | fuel + 1, m, k =>
    if k < m.depth then
      let r := infinite_state_machine_exit env m
      let rest := exitsAux env fuel r.1 k
      (rest.1, r.2.1 ++ rest.2)
    else (m, [])

/-- The enter phase of `goto`:
`while (jump.depth > depth)
  infinite_state_machine_enter(machine, jump.states[depth++]);`.
The fuel is `jump.depth`, an upper bound on the iterations (the index `i`
strictly increases).  The `Nat` component counts the iterations whose push hit
the `-ENOMEM` branch (the C code discards `enter`'s result; the count makes
that branch observable).  A `none` slot below `jump.depth` never occurs for a
scratch machine produced by `jump`; in that unreachable case the C code would
dereference a null state pointer, and the model skips the iteration. -/
def entersAux (env : Env) (js : List (Option Nat)) (jd : Nat) :
    Nat → infinite_state_machine → Nat →
    infinite_state_machine × List event × Nat
  | 0, m, _ => (m, [], 0)
  | fuel + 1, m, i =>
    if i < jd then
      match js.getD i none with
      | some s =>
          let r := infinite_state_machine_enter env m s
          let rest := entersAux env js jd fuel r.1 (i + 1)
          (rest.1, r.2.1 ++ rest.2.1,
            (if r.2.2 then 0 else 1) + rest.2.2)
      | none => entersAux env js jd fuel m (i + 1)
    else (m, [], 0)

/-- C source: `infinite_state_machine_goto` —
if the target equals the current top, return immediately; otherwise jump a
scratch machine to the target, scan for the common prefix length, exit down to
it, then enter the remaining scratch states.  The result is the mutated
machine, the trace of callback invocations (exits then enters, in invocation
order) and the number of enter-phase push failures (the C function returns
`void` and discards all error codes). -/
def infinite_state_machine_goto (env : Env) (machine : infinite_state_machine)
    (state : Option Nat) : infinite_state_machine × List event × Nat :=
  if state = infinite_state_machine_top machine then (machine, [], 0)
  else
    let jump := infinite_state_machine_jump env state
    let k := scanAux machine.states jump.states machine.depth jump.depth
      machine.depth 0
    let ex := exitsAux env machine.depth machine k
    let en := entersAux env jump.states jump.depth jump.depth ex.1 k
    (en.1, ex.2 ++ en.2.1, en.2.2)

/-- A machine whose stack holds exactly the given states (root first): the
slots below `L.length` hold the listed states, the remaining slots are
cleared.  Every machine reachable through the public API has this shape. -/
def machine_of_list (L : List Nat) : infinite_state_machine :=
  { states := L.map some ++ List.replicate (MAX_DEPTH - L.length) none,
    depth := L.length }

/-- The exit event a state contributes to a trace, if its exit callback is
present. -/
def exitEv (env : Env) (s : Nat) : Option event :=
  if (env s).exit then some (event.exit s) else none

/-- The enter event a state contributes to a trace, if its enter callback is
present. -/
def enterEv (env : Env) (s : Nat) : Option event :=
  if (env s).enter then some (event.enter s) else none

/-- Length of the longest common prefix of two lists. -/
def commonLen : List Nat → List Nat → Nat
  | a :: as, b :: bs => if a = b then commonLen as bs + 1 else 0
  | _, _ => 0

/-- Adjacent-parent property of a stack listing: each listed state's parent is
the state listed just before it. -/
abbrev chainP (env : Env) (L : List Nat) : Prop :=
  ∀ i, i + 1 < L.length → (env (L.getD (i + 1) 0)).super = some (L.getD i 0)

/-- Well-formedness invariant of a machine (the invariants documented at the
top of infinite_state_machine.c and in the spec): the state array has its
fixed size, `depth ≤ MAX_DEPTH`, every slot at index `≥ depth` is cleared, and
adjacent occupied slots are linked by the parent relation. -/
abbrev wfm (env : Env) (m : infinite_state_machine) : Prop :=
  m.states.length = MAX_DEPTH ∧
  m.depth ≤ MAX_DEPTH ∧
  (∀ i < MAX_DEPTH, m.depth ≤ i → m.states.getD i none = none) ∧
  (∀ i < m.depth - 1,
    m.states.getD i none ≠ none ∧ m.states.getD (i + 1) none ≠ none ∧
    (env ((m.states.getD (i + 1) none).getD 0)).super = m.states.getD i none)

/-- The state table of test/def.c: `d = 0` (root), `e = 1` (super `d`),
`f = 2` (super `e`), `g = 3` (super `d`); every state has both callbacks. -/
def envDEFG : Env := fun n =>
  match n with
  | 0 => ⟨none, true, true⟩
  | 1 => ⟨some 0, true, true⟩
  | 2 => ⟨some 1, true, true⟩
  | 3 => ⟨some 0, true, true⟩
  | _ => ⟨none, true, true⟩

/-- A linear chain of states `0 ← 1 ← ⋯`: state 0 is the root and state
`n + 1` has parent `n`, for all `n`; every state has both callbacks. -/
def envChain : Env := fun n =>
  match n with
  | 0 => ⟨none, true, true⟩
  | k + 1 => ⟨some k, true, true⟩

/-! ### List-level helper lemmas -/

theorem getD_cons_succ' {α : Type} (a : α) (t : List α) (j : Nat) (d : α) :
    (a :: t).getD (j + 1) d = t.getD j d := rfl

theorem getD_map_some_lt (L : List Nat) (R : List (Option Nat)) :
    ∀ j, j < L.length → (L.map some ++ R).getD j none = some (L.getD j 0) := by
  induction L with
  | nil => intro j h; simp at h
  | cons a t ih =>
      intro j h
      cases j with
      | zero => rfl
      | succ j => exact ih j (by simpa using h)

theorem getD_replicate_none (r : Nat) :
    ∀ j, (List.replicate r (none : Option Nat)).getD j none = none := by
  induction r with
  | zero => intro j; simp [List.getD]
  | succ r ih =>
      intro j
      cases j with
      | zero => rfl
      | succ j => simp [List.replicate]

theorem getD_map_some_ge (L : List Nat) (r : Nat) :
    ∀ j, L.length ≤ j →
      (L.map some ++ List.replicate r (none : Option Nat)).getD j none
        = none := by
  induction L with
  | nil => intro j _; simp
  | cons a t ih =>
      intro j h
      cases j with
      | zero => simp at h
      | succ j => exact ih j (by simpa using h)

theorem set_append_len {α : Type} (P : List α) (q : α) (Q : List α) (x : α) :
    (P ++ q :: Q).set P.length x = P ++ x :: Q := by
  induction P with
  | nil => rfl
  | cons a t ih => simp

theorem getD_append_len {α : Type} (P : List α) (q : α) (Q : List α) (d : α) :
    (P ++ q :: Q).getD P.length d = q := by
  induction P with
  | nil => rfl
  | cons a t ih => simpa using ih

theorem getD_append_lt {α : Type} (P Q : List α) (d : α) :
    ∀ j, j < P.length → (P ++ Q).getD j d = P.getD j d := by
  induction P with
  | nil => intro j h; simp at h
  | cons a t ih =>
      intro j h
      cases j with
      | zero => rfl
      | succ j => exact ih j (by simpa using h)

theorem mem_iff_getD (L : List Nat) (s : Nat) :
    s ∈ L ↔ ∃ i, i < L.length ∧ L.getD i 0 = s := by
  induction L with
  | nil => simp
  | cons a t ih =>
      simp only [List.mem_cons, ih, List.length_cons]
      constructor
      · rintro (rfl | ⟨i, hi, hv⟩)
        · exact ⟨0, by omega, rfl⟩
        · exact ⟨i + 1, by omega, hv⟩
      · rintro ⟨i, hi, hv⟩
        cases i with
        | zero => exact Or.inl hv.symm
        | succ i => exact Or.inr ⟨i, by omega, hv⟩

theorem drop_eq_getD_cons (L : List Nat) :
    ∀ i, i < L.length → L.drop i = L.getD i 0 :: L.drop (i + 1) := by
  induction L with
  | nil => intro i h; simp at h
  | cons a t ih =>
      intro i h
      cases i with
      | zero => rfl
      | succ i => simpa using ih i (by simpa using h)

/-! ### commonLen lemmas -/

theorem commonLen_nil_right (L : List Nat) : commonLen L [] = 0 := by
  cases L <;> rfl

theorem commonLen_le_left : ∀ A B : List Nat, commonLen A B ≤ A.length := by
  intro A
  induction A with
  | nil => intro B; cases B <;> simp [commonLen]
  | cons a t ih =>
      intro B
      cases B with
      | nil => simp [commonLen]
      | cons b B =>
          simp only [commonLen, List.length_cons]
          by_cases h : a = b
          · have := ih B
            simp only [if_pos h]
            omega
          · simp only [if_neg h]
            omega

theorem commonLen_le_right : ∀ A B : List Nat, commonLen A B ≤ B.length := by
  intro A
  induction A with
  | nil => intro B; cases B <;> simp [commonLen]
  | cons a t ih =>
      intro B
      cases B with
      | nil => simp [commonLen]
      | cons b B =>
          simp only [commonLen, List.length_cons]
          by_cases h : a = b
          · have := ih B
            simp only [if_pos h]
            omega
          · simp only [if_neg h]
            omega

theorem commonLen_take_eq : ∀ A B : List Nat,
    A.take (commonLen A B) = B.take (commonLen A B) := by
  intro A
  induction A with
  | nil => intro B; cases B <;> simp [commonLen]
  | cons a t ih =>
      intro B
      cases B with
      | nil => simp [commonLen]
      | cons b B =>
          by_cases h : a = b
          · subst h; simp [commonLen, ih]
          · simp [commonLen, h]

theorem commonLen_self : ∀ A : List Nat, commonLen A A = A.length := by
  intro A
  induction A with
  | nil => rfl
  | cons a t ih => simp [commonLen, ih]

theorem commonLen_getD_eq : ∀ A B : List Nat, ∀ i, i < commonLen A B →
    A.getD i 0 = B.getD i 0 := by
  intro A
  induction A with
  | nil => intro B i h; simp [commonLen] at h
  | cons a t ih =>
      intro B i h
      cases B with
      | nil => simp [commonLen] at h
      | cons b B =>
          by_cases hab : a = b
          · subst hab
            cases i with
            | zero => rfl
            | succ i =>
                have h' : i < commonLen t B := by
                  have : commonLen (a :: t) (a :: B) = commonLen t B + 1 := by
                    simp [commonLen]
                  omega
                exact ih B i h'
          · simp [commonLen, hab] at h

/-! ### machine_of_list lemmas -/

theorem mol_depth (L : List Nat) : (machine_of_list L).depth = L.length := rfl

theorem mol_getD_lt (L : List Nat) (j : Nat) (h : j < L.length) :
    (machine_of_list L).states.getD j none = some (L.getD j 0) :=
  getD_map_some_lt L _ j h

theorem mol_getD_ge (L : List Nat) (j : Nat) (h : L.length ≤ j) :
    (machine_of_list L).states.getD j none = none :=
  getD_map_some_ge L _ j h

theorem mol_states_length (L : List Nat) (h : L.length ≤ MAX_DEPTH) :
    (machine_of_list L).states.length = MAX_DEPTH := by
  simp [machine_of_list]
  omega

theorem init_eq_mol : infinite_state_machine_init = machine_of_list [] := rfl

theorem push_mol (L : List Nat) (s : Nat) (h : L.length < MAX_DEPTH) :
    infinite_state_machine_push (machine_of_list L) s
      = some (machine_of_list (L ++ [s])) := by
  have hne : (machine_of_list L).depth ≠ MAX_DEPTH := by
    simp [mol_depth]; omega
  simp only [infinite_state_machine_push, if_neg hne]
  congr 1
  have hrep : MAX_DEPTH - L.length = (MAX_DEPTH - (L.length + 1)) + 1 := by
    omega
  simp only [machine_of_list, mol_depth, hrep, List.replicate_succ]
  have haux := set_append_len (L.map some) none
    (List.replicate (MAX_DEPTH - (L.length + 1)) none) (some s)
  rw [List.length_map] at haux
  rw [haux]
  simp

theorem pop_mol (L : List Nat) (a : Nat) (h : (L ++ [a]).length ≤ MAX_DEPTH) :
    infinite_state_machine_pop (machine_of_list (L ++ [a]))
      = (machine_of_list L, some a) := by
  have hlen : (L ++ [a]).length = L.length + 1 := by simp
  have hne : (machine_of_list (L ++ [a])).depth ≠ 0 := by
    simp [mol_depth, hlen]
  simp only [infinite_state_machine_pop, if_neg hne]
  have hd : (machine_of_list (L ++ [a])).depth - 1 = L.length := by
    simp [mol_depth, hlen]
  rw [hd]
  have hget : (machine_of_list (L ++ [a])).states.getD L.length none
      = some a := by
    rw [mol_getD_lt (L ++ [a]) L.length (by simp)]
    congr 1
    exact getD_append_len L a [] 0
  have hset : (machine_of_list (L ++ [a])).states.set L.length none
      = (machine_of_list L).states := by
    show ((L ++ [a]).map some
        ++ List.replicate (MAX_DEPTH - (L ++ [a]).length) none).set
          L.length none
      = L.map some ++ List.replicate (MAX_DEPTH - L.length) none
    have hmap : (L ++ [a]).map some
        ++ List.replicate (MAX_DEPTH - (L ++ [a]).length) none
      = L.map some
        ++ some a :: List.replicate (MAX_DEPTH - (L.length + 1)) none := by
      simp [hlen]
    rw [hmap]
    have haux := set_append_len (L.map some) (some a)
      (List.replicate (MAX_DEPTH - (L.length + 1)) none) none
    rw [List.length_map] at haux
    rw [haux]
    have hrep : MAX_DEPTH - L.length = (MAX_DEPTH - (L.length + 1)) + 1 := by
      simp at h; omega
    rw [hrep, List.replicate_succ]
  rw [hget, hset]
  rfl

theorem top_mol_nil : infinite_state_machine_top (machine_of_list []) = none :=
  rfl

theorem top_mol (L : List Nat) (a : Nat) (_h : (L ++ [a]).length ≤ MAX_DEPTH) :
    infinite_state_machine_top (machine_of_list (L ++ [a])) = some a := by
  have hlen : (L ++ [a]).length = L.length + 1 := by simp
  have hne : (machine_of_list (L ++ [a])).depth ≠ 0 := by
    simp [mol_depth, hlen]
  simp only [infinite_state_machine_top, if_neg hne]
  have hd : (machine_of_list (L ++ [a])).depth - 1 = L.length := by
    simp [mol_depth, hlen]
  rw [hd]
  have := mol_getD_lt (L ++ [a]) L.length (by simp)
  rw [this]
  congr 1
  exact getD_append_len L a [] 0

theorem top_mol_ne_none (L : List Nat) (hne : L ≠ [])
    (h : L.length ≤ MAX_DEPTH) :
    ∃ a, infinite_state_machine_top (machine_of_list L) = some a := by
  rcases List.eq_nil_or_concat L with rfl | ⟨L', a, rfl⟩
  · exact absurd rfl hne
  · rw [List.concat_eq_append] at h ⊢
    exact ⟨a, top_mol L' a h⟩

theorem in_mol (L : List Nat) (s : Nat) (_h : L.length ≤ MAX_DEPTH) :
    infinite_state_machine_in (some (machine_of_list L)) (some s)
      = if s ∈ L then 1 else 0 := by
  simp only [infinite_state_machine_in]
  by_cases hm : s ∈ L
  · rw [if_pos hm, if_pos]
    rw [List.any_eq_true]
    obtain ⟨i, hi, hv⟩ := (mem_iff_getD L s).1 hm
    refine ⟨i, List.mem_range.2 (by simpa [mol_depth] using hi), ?_⟩
    rw [decide_eq_true_eq, mol_getD_lt L i hi, hv]
  · rw [if_neg hm, if_neg]
    rw [List.any_eq_true]
    rintro ⟨i, hi, hv⟩
    rw [decide_eq_true_eq] at hv
    have hi' : i < L.length := by simpa [mol_depth] using List.mem_range.1 hi
    rw [mol_getD_lt L i hi'] at hv
    exact hm ((mem_iff_getD L s).2 ⟨i, hi', by simpa using hv⟩)

/-! ### jump writes the topology list -/

theorem write_states_general : ∀ (L : List Nat) (P Q : List (Option Nat)),
    L.length ≤ Q.length →
    write_states (P ++ Q) P.length L = (P ++ L.map some) ++ Q.drop L.length := by
  intro L
  induction L with
  | nil => intro P Q _; simp [write_states]
  | cons s t ih =>
      intro P Q h
      cases Q with
      | nil => simp at h
      | cons q Q =>
          simp only [write_states]
          rw [set_append_len P q Q (some s)]
          have hP : P ++ some s :: Q = (P ++ [some s]) ++ Q := by simp
          have hlen : P.length + 1 = (P ++ [some s]).length := by simp
          rw [hP, hlen, ih (P ++ [some s]) Q (by simpa using h)]
          simp

theorem jump_eq (env : Env) (t : Option Nat)
    (h : (infinite_state_topology env t MAX_DEPTH).length ≤ MAX_DEPTH) :
    infinite_state_machine_jump env t
      = machine_of_list (infinite_state_topology env t MAX_DEPTH) := by
  unfold infinite_state_machine_jump machine_of_list
  have hrep : infinite_state_machine_init.states
      = ([] : List (Option Nat)) ++ List.replicate MAX_DEPTH none := by rfl
  rw [hrep]
  have := write_states_general (infinite_state_topology env t MAX_DEPTH)
    [] (List.replicate MAX_DEPTH none) (by simpa using h)
  simpa [List.drop_replicate] using this

/-! ### topology lemmas -/

theorem topology_length_le (env : Env) :
    ∀ (d : Nat) (os : Option Nat),
      (infinite_state_topology env os d).length ≤ d := by
  intro d
  induction d with
  | zero => intro os; cases os <;> simp [infinite_state_topology]
  | succ d ih =>
      intro os
      cases os with
      | none => simp [infinite_state_topology]
      | some s =>
          simp only [infinite_state_topology, List.length_append,
            List.length_cons, List.length_nil]
          have := ih (env s).super
          omega

theorem superChain_zero (env : Env) (os : Option Nat) :
    superChain env os 0 = os := by cases os <;> rfl

theorem superChain_none (env : Env) : ∀ n, superChain env none n = none := by
  intro n; cases n <;> rfl

theorem superChain_succ (env : Env) (s : Nat) (n : Nat) :
    superChain env (some s) (n + 1) = superChain env (env s).super n := rfl

theorem superChain_none_mono (env : Env) :
    ∀ (n : Nat) (os : Option Nat), superChain env os n = none →
      superChain env os (n + 1) = none := by
  intro n
  induction n with
  | zero =>
      intro os h
      rw [superChain_zero] at h
      subst h
      rfl
  | succ n ih =>
      intro os h
      cases os with
      | none => rfl
      | some s =>
          rw [superChain_succ] at h ⊢
          exact ih (env s).super h

/-- Master description of the topology vector: the element written at offset
`length - 1 - j` is the `j`-th iterated parent of the starting state.  In
particular the walk always keeps the leaf-most (nearest) portion of the
ancestor chain. -/
theorem topology_getD (env : Env) :
    ∀ (d : Nat) (os : Option Nat) (j : Nat),
      j < (infinite_state_topology env os d).length →
      superChain env os j
        = some ((infinite_state_topology env os d).getD
            ((infinite_state_topology env os d).length - 1 - j) 0) := by
  intro d
  induction d with
  | zero => intro os j h; cases os <;> simp [infinite_state_topology] at h
  | succ d ih =>
      intro os j h
      cases os with
      | none => simp [infinite_state_topology] at h
      | some s =>
          simp only [infinite_state_topology] at h ⊢
          set T := infinite_state_topology env (env s).super d with hT
          have hlen : (T ++ [s]).length = T.length + 1 := by simp
          cases j with
          | zero =>
              rw [superChain_zero, hlen]
              have hidx : T.length + 1 - 1 - 0 = T.length := by omega
              rw [hidx]
              exact (congrArg some (getD_append_len T s [] 0)).symm
          | succ j =>
              rw [superChain_succ, hlen]
              have hj : j < T.length := by
                rw [hlen] at h; omega
              have := ih (env s).super j hj
              rw [this]
              congr 1
              have hidx : T.length + 1 - 1 - (j + 1) = T.length - 1 - j := by
                omega
              rw [hidx]
              exact (getD_append_lt T [s] 0 (T.length - 1 - j) (by omega)).symm

/-- A chain that continues past `n` forces the topology vector for any budget
above `n` to hold more than `n` entries. -/
theorem topology_length_ge (env : Env) :
    ∀ (n : Nat) (os : Option Nat) (d : Nat),
      superChain env os n ≠ none → n < d →
      n < (infinite_state_topology env os d).length := by
  intro n
  induction n with
  | zero =>
      intro os d h hd
      cases os with
      | none => simp [superChain_zero] at h
      | some s =>
          cases d with
          | zero => omega
          | succ d => simp [infinite_state_topology]
  | succ n ih =>
      intro os d h hd
      cases os with
      | none => rw [superChain_none] at h; exact absurd rfl h
      | some s =>
          cases d with
          | zero => omega
          | succ d =>
              rw [superChain_succ] at h
              have := ih (env s).super d h (by omega)
              simp only [infinite_state_topology, List.length_append]
              simp
              omega

theorem topology_none (env : Env) (d : Nat) :
    infinite_state_topology env none d = [] := by cases d <;> rfl

theorem topology_some_succ (env : Env) (s : Nat) (d : Nat) :
    infinite_state_topology env (some s) (d + 1)
      = infinite_state_topology env (env s).super d ++ [s] := rfl

theorem topology_ne_nil_some (env : Env) (s : Nat) (d : Nat) :
    infinite_state_topology env (some s) (d + 1) ≠ [] := by
  rw [topology_some_succ]
  simp

theorem topology_source_of_ne_nil (env : Env) (d : Nat) (os : Option Nat)
    (h : infinite_state_topology env os d ≠ []) :
    os = some ((infinite_state_topology env os d).getD
      ((infinite_state_topology env os d).length - 1) 0) := by
  have hlen : 0 < (infinite_state_topology env os d).length :=
    List.length_pos.2 h
  have := topology_getD env d os 0 hlen
  rw [superChain_zero] at this
  simpa using this

theorem topology_chainP (env : Env) :
    ∀ (d : Nat) (os : Option Nat),
      chainP env (infinite_state_topology env os d) := by
  intro d
  induction d with
  | zero =>
      intro os i hi
      cases os <;> simp [infinite_state_topology] at hi
  | succ d ih =>
      intro os
      cases os with
      | none => intro i hi; simp [topology_none] at hi
      | some s =>
          rw [topology_some_succ]
          set T := infinite_state_topology env (env s).super d with hT
          intro i hi
          rw [List.length_append, List.length_cons, List.length_nil] at hi
          rcases Nat.lt_or_ge (i + 1) T.length with hlt | hge
          · rw [getD_append_lt T [s] 0 (i + 1) hlt,
              getD_append_lt T [s] 0 i (by omega)]
            exact ih (env s).super i hlt
          · have heq : i + 1 = T.length := by omega
            have hTne : T ≠ [] := by
              intro hnil
              rw [hnil] at heq
              simp at heq
            have hsrc := topology_source_of_ne_nil env d (env s).super
              (hT ▸ hTne)
            rw [← hT] at hsrc
            have hgd1 : (T ++ [s]).getD (i + 1) 0 = s := by
              rw [heq]
              exact getD_append_len T s [] 0
            have hgd0 : (T ++ [s]).getD i 0 = T.getD i 0 :=
              getD_append_lt T [s] 0 i (by omega)
            rw [hgd1, hgd0, hsrc]
            congr 2
            omega

theorem mem_topology_of_superChain (env : Env) (s : Nat) (d j : Nat) (a : Nat)
    (hj : superChain env (some s) j = some a) (hjd : j < d) :
    a ∈ infinite_state_topology env (some s) d := by
  have hlen : j < (infinite_state_topology env (some s) d).length :=
    topology_length_ge env j (some s) d (by rw [hj]; simp) hjd
  have := topology_getD env d (some s) j hlen
  rw [hj] at this
  apply (mem_iff_getD _ a).2
  exact ⟨(infinite_state_topology env (some s) d).length - 1 - j,
    by omega, (Option.some.inj this).symm⟩

theorem top_jump (env : Env) (t : Option Nat) :
    infinite_state_machine_top (infinite_state_machine_jump env t) = t := by
  have hlen := topology_length_le env MAX_DEPTH t
  rw [jump_eq env t hlen]
  cases t with
  | none => rfl
  | some s =>
      show infinite_state_machine_top
        (machine_of_list (infinite_state_topology env (some s) (6 + 1)))
          = some s
      rw [topology_some_succ]
      exact top_mol _ s (by
        have := topology_length_le env MAX_DEPTH (some s)
        rw [show MAX_DEPTH = 6 + 1 from rfl, topology_some_succ] at this
        exact this)

/-! ### Characterization of the goto loops on well-shaped machines -/

theorem scanAux_mol (A B : List Nat) :
    ∀ (fuel i : Nat), A.length ≤ i + fuel →
      scanAux (machine_of_list A).states (machine_of_list B).states
          A.length B.length fuel i
        = i + commonLen (A.drop i) (B.drop i) := by
  intro fuel
  induction fuel with
  | zero =>
      intro i hfuel
      have hA : A.drop i = [] := List.drop_eq_nil_of_le (by omega)
      rw [hA]
      simp [scanAux, commonLen]
  | succ fuel ih =>
      intro i hfuel
      by_cases hc : i < A.length ∧ i < B.length ∧
          (machine_of_list A).states.getD i none
            = (machine_of_list B).states.getD i none
      · simp only [scanAux, if_pos hc]
        obtain ⟨hiA, hiB, hslots⟩ := hc
        have heq : A.getD i 0 = B.getD i 0 := by
          rw [mol_getD_lt A i hiA, mol_getD_lt B i hiB] at hslots
          exact Option.some.inj hslots
        rw [ih (i + 1) (by omega), drop_eq_getD_cons A i hiA,
          drop_eq_getD_cons B i hiB, heq]
        have hcl : commonLen (B.getD i 0 :: A.drop (i + 1))
            (B.getD i 0 :: B.drop (i + 1))
          = commonLen (A.drop (i + 1)) (B.drop (i + 1)) + 1 := by
          simp [commonLen]
        rw [hcl]
        omega
      · simp only [scanAux, if_neg hc]
        push_neg at hc
        rcases Nat.lt_or_ge i A.length with hiA | hiA
        · rcases Nat.lt_or_ge i B.length with hiB | hiB
          · have hslots := hc hiA hiB
            rw [mol_getD_lt A i hiA, mol_getD_lt B i hiB] at hslots
            have hne : A.getD i 0 ≠ B.getD i 0 := fun he =>
              hslots (by rw [he])
            rw [drop_eq_getD_cons A i hiA, drop_eq_getD_cons B i hiB]
            have hcl : commonLen (A.getD i 0 :: A.drop (i + 1))
                (B.getD i 0 :: B.drop (i + 1)) = 0 := by
              simp only [commonLen, if_neg hne]
            rw [hcl]
            omega
          · have hB : B.drop i = [] := List.drop_eq_nil_of_le (by omega)
            rw [hB, commonLen_nil_right]
            omega
        · have hA : A.drop i = [] := List.drop_eq_nil_of_le (by omega)
          rw [hA]
          have hcl : commonLen [] (B.drop i) = 0 := by
            cases B.drop i <;> rfl
          rw [hcl]
          omega

theorem exit_mol (env : Env) (L : List Nat) (a : Nat)
    (h : (L ++ [a]).length ≤ MAX_DEPTH) :
    infinite_state_machine_exit env (machine_of_list (L ++ [a]))
      = (machine_of_list L,
         (if (env a).exit then [event.exit a] else []), true) := by
  unfold infinite_state_machine_exit
  rw [pop_mol L a h]

theorem enter_mol (env : Env) (L : List Nat) (s : Nat)
    (h : L.length < MAX_DEPTH) :
    infinite_state_machine_enter env (machine_of_list L) s
      = (machine_of_list (L ++ [s]),
         (if (env s).enter then [event.enter s] else []), true) := by
  unfold infinite_state_machine_enter
  rw [push_mol L s h]

theorem exitsAux_mol (env : Env) :
    ∀ (S P : List Nat) (fuel : Nat), (P ++ S).length ≤ MAX_DEPTH →
      S.length ≤ fuel →
      exitsAux env fuel (machine_of_list (P ++ S)) P.length
        = (machine_of_list P, S.reverse.filterMap (exitEv env)) := by
  intro S
  induction S using List.reverseRecOn with
  | nil =>
      intro P fuel h hf
      cases fuel with
      | zero => simp [exitsAux]
      | succ fuel => simp [exitsAux, mol_depth]
  | append_singleton S' a ih =>
      intro P fuel h hf
      rw [List.length_append] at hf
      cases fuel with
      | zero => simp at hf
      | succ fuel =>
          have hcond : P.length < (machine_of_list (P ++ (S' ++ [a]))).depth := by
            simp [mol_depth]
          simp only [exitsAux, if_pos hcond]
          have hassoc : P ++ (S' ++ [a]) = (P ++ S') ++ [a] := by simp
          rw [hassoc, exit_mol env (P ++ S') a (by rw [← hassoc]; exact h)]
          have hP : (P ++ S').length ≤ MAX_DEPTH := by
            simp at h ⊢; omega
          rw [ih P fuel hP (by simp at hf ⊢; omega)]
          rw [List.reverse_append]
          simp only [List.reverse_singleton, List.singleton_append,
            List.filterMap_cons, exitEv]
          by_cases hx : (env a).exit
          · simp [hx]
          · simp [hx]

theorem entersAux_mol (env : Env) (T : List Nat) (hT : T.length ≤ MAX_DEPTH) :
    ∀ (fuel k : Nat) (M : List Nat), k ≤ T.length → M.length = k →
      T.length - k ≤ fuel →
      entersAux env (machine_of_list T).states T.length fuel
          (machine_of_list M) k
        = (machine_of_list (M ++ T.drop k),
           (T.drop k).filterMap (enterEv env), 0) := by
  intro fuel
  induction fuel with
  | zero =>
      intro k M hk hM hf
      have hkT : k = T.length := by omega
      subst hkT
      simp [entersAux, List.drop_length]
  | succ fuel ih =>
      intro k M hk hM hf
      by_cases hlt : k < T.length
      · simp only [entersAux, if_pos hlt, mol_getD_lt T k hlt]
        rw [enter_mol env M (T.getD k 0) (by omega)]
        simp only []
        rw [ih (k + 1) (M ++ [T.getD k 0]) (by omega) (by simp [hM])
          (by omega)]
        rw [drop_eq_getD_cons T k hlt]
        generalize T.getD k 0 = v
        simp only [List.filterMap_cons, enterEv, List.append_assoc,
          List.singleton_append]
        by_cases hx : (env v).enter
        · simp [hx]
        · simp [hx]
      · have hkT : k = T.length := by omega
        subst hkT
        simp [entersAux, List.drop_length]

/-! ### goto on well-shaped machines -/

theorem jump_depth (env : Env) (t : Option Nat) :
    (infinite_state_machine_jump env t).depth
      = (infinite_state_topology env t MAX_DEPTH).length := rfl

theorem goto_noop (env : Env) (m : infinite_state_machine) (t : Option Nat)
    (h : t = infinite_state_machine_top m) :
    infinite_state_machine_goto env m t = (m, [], 0) := by
  simp [infinite_state_machine_goto, h]

/-- Full description of a non-trivial `goto` from a machine whose stack holds
the states `L`: with `T` the target's bounded forward topology and `k` the
longest common prefix length of `L` and `T`, the machine ends holding exactly
`T`, the trace exits `L`'s suffix beyond `k` innermost-first and then enters
`T`'s suffix beyond `k` outermost-first, and no push ever fails. -/
theorem goto_mol (env : Env) (L : List Nat) (t : Option Nat)
    (hL : L.length ≤ MAX_DEPTH)
    (hne : t ≠ infinite_state_machine_top (machine_of_list L)) :
    infinite_state_machine_goto env (machine_of_list L) t
      = (machine_of_list (infinite_state_topology env t MAX_DEPTH),
         ((L.drop
            (commonLen L (infinite_state_topology env t MAX_DEPTH))).reverse
           |>.filterMap (exitEv env))
          ++ (((infinite_state_topology env t MAX_DEPTH).drop
                (commonLen L (infinite_state_topology env t MAX_DEPTH)))
              |>.filterMap (enterEv env)),
         0) := by
  set T := infinite_state_topology env t MAX_DEPTH with hT
  have hT7 : T.length ≤ MAX_DEPTH := topology_length_le env MAX_DEPTH t
  set k := commonLen L T with hk
  have hkL : k ≤ L.length := commonLen_le_left L T
  have hkT : k ≤ T.length := commonLen_le_right L T
  simp only [infinite_state_machine_goto, if_neg hne]
  rw [jump_eq env t hT7, ← hT]
  have hscan : scanAux (machine_of_list L).states (machine_of_list T).states
      (machine_of_list L).depth (machine_of_list T).depth
      (machine_of_list L).depth 0 = k := by
    simp only [mol_depth]
    rw [scanAux_mol L T L.length 0 (by omega)]
    simp [hk]
  rw [hscan]
  have hsplit : machine_of_list L
      = machine_of_list (L.take k ++ L.drop k) := by
    rw [List.take_append_drop]
  have hexits : exitsAux env (machine_of_list L).depth (machine_of_list L) k
      = (machine_of_list (L.take k),
         (L.drop k).reverse.filterMap (exitEv env)) := by
    have htk : (L.take k).length = k := by
      rw [List.length_take]
      omega
    have h7 : (L.take k ++ L.drop k).length ≤ MAX_DEPTH := by
      rw [List.take_append_drop]
      exact hL
    have haux := exitsAux_mol env (L.drop k) (L.take k)
      (L.take k ++ L.drop k).length h7
      (by rw [List.length_append]; omega)
    rw [htk] at haux
    rw [hsplit, mol_depth]
    exact haux
  rw [hexits]
  have henters : entersAux env (machine_of_list T).states
      (machine_of_list T).depth (machine_of_list T).depth
      (machine_of_list (L.take k)) k
      = (machine_of_list (L.take k ++ T.drop k),
         (T.drop k).filterMap (enterEv env), 0) := by
    rw [mol_depth]
    exact entersAux_mol env T hT7 T.length k (L.take k) hkT
      (by rw [List.length_take]; omega) (by omega)
  rw [henters]
  have hpre : L.take k = T.take k := commonLen_take_eq L T
  rw [hpre, List.take_append_drop]

/-! ### General bounds on the goto loops (any machine) -/

theorem scanAux_le (as bs : List (Option Nat)) (ad bd : Nat) :
    ∀ (fuel i : Nat), i ≤ ad → i ≤ bd →
      scanAux as bs ad bd fuel i ≤ ad ∧ scanAux as bs ad bd fuel i ≤ bd := by
  intro fuel
  induction fuel with
  | zero => intro i hA hB; exact ⟨hA, hB⟩
  | succ fuel ih =>
      intro i hA hB
      by_cases hc : i < ad ∧ i < bd ∧ as.getD i none = bs.getD i none
      · simp only [scanAux, if_pos hc]
        exact ih (i + 1) (by omega) (by omega)
      · simp only [scanAux, if_neg hc]
        exact ⟨hA, hB⟩

theorem exit_depth (env : Env) (m : infinite_state_machine)
    (h : m.depth ≠ 0) :
    (infinite_state_machine_exit env m).1.depth = m.depth - 1 := by
  unfold infinite_state_machine_exit infinite_state_machine_pop
  rw [if_neg h]
  cases hv : m.states.getD (m.depth - 1) none <;> simp [hv]

theorem exitsAux_depth (env : Env) :
    ∀ (fuel : Nat) (m : infinite_state_machine) (k : Nat),
      k ≤ m.depth → m.depth - k ≤ fuel →
      (exitsAux env fuel m k).1.depth = k := by
  intro fuel
  induction fuel with
  | zero =>
      intro m k hk hf
      have : m.depth = k := by omega
      simp [exitsAux, this]
  | succ fuel ih =>
      intro m k hk hf
      by_cases hc : k < m.depth
      · simp only [exitsAux, if_pos hc]
        have hd := exit_depth env m (by omega)
        exact ih (infinite_state_machine_exit env m).1 k (by omega) (by omega)
      · simp only [exitsAux, if_neg hc]
        omega

theorem enter_no_fail (env : Env) (m : infinite_state_machine) (s : Nat)
    (h : m.depth ≠ MAX_DEPTH) :
    (infinite_state_machine_enter env m s).2.2 = true ∧
    (infinite_state_machine_enter env m s).1.depth = m.depth + 1 := by
  unfold infinite_state_machine_enter infinite_state_machine_push
  rw [if_neg h]
  exact ⟨rfl, rfl⟩

theorem entersAux_fails (env : Env) (js : List (Option Nat)) (jd : Nat)
    (hjd : jd ≤ MAX_DEPTH) :
    ∀ (fuel i : Nat) (m : infinite_state_machine),
      i ≤ jd → m.depth ≤ i → jd - i ≤ fuel →
      (entersAux env js jd fuel m i).2.2 = 0 := by
  intro fuel
  induction fuel with
  | zero => intro i m _ _ _; rfl
  | succ fuel ih =>
      intro i m hi hm hf
      by_cases hc : i < jd
      · simp only [entersAux, if_pos hc]
        cases hslot : js.getD i none with
        | none => exact ih (i + 1) m (by omega) (by omega) (by omega)
        | some s =>
            have hne : m.depth ≠ MAX_DEPTH := by omega
            obtain ⟨hok, hdep⟩ := enter_no_fail env m s hne
            simp only [hok, if_true]
            rw [ih (i + 1) (infinite_state_machine_enter env m s).1 (by omega)
              (by omega) (by omega)]
      · simp only [entersAux, if_neg hc]

/-! ### Well-formedness: shape analysis -/

/-- The only well-formed machine that is not of `machine_of_list` shape: one
occupied-by-count but cleared slot (depth 1, all slots empty).  The invariant
as documented constrains parent links only between two occupied slots, so it
does not rule this shape out. -/
def degenM : infinite_state_machine :=
  { states := List.replicate MAX_DEPTH none, depth := 1 }

theorem getD_range_map (f : Nat → Nat) (n : Nat) :
    ∀ j, j < n → ((List.range n).map f).getD j 0 = f j := by
  intro j hj
  have hlen : j < ((List.range n).map f).length := by
    simpa using hj
  rw [List.getD_eq_getElem _ _ hlen]
  simp

theorem wfm_mol (env : Env) (L : List Nat) (hL : L.length ≤ MAX_DEPTH)
    (hc : chainP env L) : wfm env (machine_of_list L) := by
  refine ⟨mol_states_length L hL, by simpa [mol_depth] using hL, ?_, ?_⟩
  · intro i _ hdep
    exact mol_getD_ge L i (by simpa [mol_depth] using hdep)
  · intro i hi
    rw [mol_depth] at hi
    have hi0 : i < L.length := by omega
    have hi1 : i + 1 < L.length := by omega
    rw [mol_getD_lt L i hi0, mol_getD_lt L (i + 1) hi1]
    refine ⟨by simp, by simp, ?_⟩
    simpa using hc i hi1

theorem wfm_shape (env : Env) (m : infinite_state_machine) (h : wfm env m) :
    (∃ L, L.length ≤ MAX_DEPTH ∧ m = machine_of_list L) ∨ m = degenM := by
  obtain ⟨hlen, hdep, hnull, hchain⟩ := h
  have hgetD : ∀ (X : List (Option Nat)) (j : Nat) (hX : j < X.length),
      X[j] = X.getD j none := by
    intro X j hX
    rw [List.getD_eq_getElem _ _ hX]
  by_cases hslots : ∀ i, i < m.depth → m.states.getD i none ≠ none
  · left
    set L := (List.range m.depth).map
      (fun i => (m.states.getD i none).getD 0) with hLdef
    have hLlen : L.length = m.depth := by simp [hLdef]
    have hL7 : L.length ≤ MAX_DEPTH := by rw [hLlen]; exact hdep
    refine ⟨L, hL7, ?_⟩
    have hstates : m.states = (machine_of_list L).states := by
      apply List.ext_getElem
      · rw [hlen, mol_states_length L hL7]
      · intro j h1 h2
        have hj7 : j < MAX_DEPTH := by rw [hlen] at h1; exact h1
        rw [hgetD _ j h1, hgetD _ j h2]
        rcases Nat.lt_or_ge j m.depth with hjd | hjd
        · rw [mol_getD_lt L j (by rw [hLlen]; exact hjd)]
          obtain ⟨v, hv⟩ := Option.ne_none_iff_exists'.1 (hslots j hjd)
          rw [hLdef, getD_range_map _ m.depth j hjd, hv]
          rfl
        · rw [mol_getD_ge L j (by rw [hLlen]; exact hjd)]
          exact hnull j hj7 hjd
    have hdep2 : m.depth = (machine_of_list L).depth := by
      rw [mol_depth, hLlen]
    cases m with
    | mk states depth =>
        simp only at hstates hdep2
        rw [hstates, hdep2]
  · right
    push_neg at hslots
    obtain ⟨i, hid, hinone⟩ := hslots
    have hd : m.depth = 1 := by
      by_contra hne
      have hd2 : 2 ≤ m.depth := by omega
      rcases Nat.lt_or_ge i (m.depth - 1) with hii | hii
      · exact (hchain i hii).1 hinone
      · have hieq : i = m.depth - 1 := by omega
        have hlast := (hchain (m.depth - 2) (by omega)).2.1
        have heq2 : m.depth - 2 + 1 = i := by omega
        rw [heq2] at hlast
        exact hlast hinone
    have hi0 : i = 0 := by omega
    subst hi0
    have hstates : m.states = degenM.states := by
      apply List.ext_getElem
      · rw [hlen]
        rfl
      · intro j h1 h2
        have hj7 : j < MAX_DEPTH := by rw [hlen] at h1; exact h1
        rw [hgetD _ j h1, hgetD _ j h2]
        have hrep : degenM.states.getD j none = none :=
          getD_replicate_none MAX_DEPTH j
        rw [hrep]
        rcases Nat.eq_zero_or_pos j with rfl | hj
        · exact hinone
        · exact hnull j hj7 (by omega)
    have hdep2 : m.depth = degenM.depth := hd
    cases m with
    | mk states depth =>
        simp only at hstates hdep2
        rw [hstates, hdep2]

theorem top_degen : infinite_state_machine_top degenM = none := rfl

theorem goto_degen (env : Env) (s : Nat) :
    infinite_state_machine_goto env degenM (some s)
      = (machine_of_list (infinite_state_topology env (some s) MAX_DEPTH),
         (infinite_state_topology env (some s) MAX_DEPTH).filterMap
           (enterEv env), 0) := by
  have hne : (some s : Option Nat) ≠ infinite_state_machine_top degenM := by
    rw [top_degen]
    simp
  set T := infinite_state_topology env (some s) MAX_DEPTH with hT
  have hT7 : T.length ≤ MAX_DEPTH := topology_length_le env MAX_DEPTH (some s)
  have hTne : T ≠ [] := by
    rw [hT, show MAX_DEPTH = 6 + 1 from rfl]
    exact topology_ne_nil_some env s 6
  have hTpos : 0 < T.length := List.length_pos.2 hTne
  simp only [infinite_state_machine_goto, if_neg hne]
  rw [jump_eq env (some s) hT7, ← hT]
  have hscan : scanAux degenM.states (machine_of_list T).states
      degenM.depth (machine_of_list T).depth degenM.depth 0 = 0 := by
    have hslot : degenM.states.getD 0 none = none := getD_replicate_none _ 0
    have hmolslot : (machine_of_list T).states.getD 0 none
        = some (T.getD 0 0) := mol_getD_lt T 0 hTpos
    have hcond : ¬(0 < degenM.depth ∧ 0 < (machine_of_list T).depth ∧
        degenM.states.getD 0 none = (machine_of_list T).states.getD 0 none) := by
      rintro ⟨-, -, habs⟩
      rw [hslot, hmolslot] at habs
      exact Option.noConfusion habs
    show scanAux degenM.states (machine_of_list T).states
      degenM.depth (machine_of_list T).depth 1 0 = 0
    simp only [scanAux, if_neg hcond]
  rw [hscan]
  have hexits : exitsAux env degenM.depth degenM 0
      = (machine_of_list [], []) := rfl
  rw [hexits]
  have henters : entersAux env (machine_of_list T).states
      (machine_of_list T).depth (machine_of_list T).depth
      (machine_of_list []) 0
      = (machine_of_list T, T.filterMap (enterEv env), 0) := by
    rw [mol_depth]
    have := entersAux_mol env T hT7 T.length 0 [] (by omega) rfl (by omega)
    simpa using this
  rw [henters]
  rfl

/-! ### Remaining helpers for the claim theorems -/

theorem commonLen_nil_left (X : List Nat) : commonLen [] X = 0 := by
  cases X <;> rfl

theorem superChain_none_of_ge (env : Env) (os : Option Nat) (n : Nat)
    (h : superChain env os n = none) :
    ∀ m, n ≤ m → superChain env os m = none := by
  intro m hm
  induction m, hm using Nat.le_induction with
  | base => exact h
  | succ m _ ih => exact superChain_none_mono env m os ih

theorem superChain_ne_none_of_le (env : Env) (os : Option Nat) (n j : Nat)
    (h : superChain env os n ≠ none) (hj : j ≤ n) :
    superChain env os j ≠ none := by
  intro hnone
  exact h (superChain_none_of_ge env os j hnone n hj)

theorem top_mol_topology (env : Env) (t : Option Nat) :
    infinite_state_machine_top
      (machine_of_list (infinite_state_topology env t MAX_DEPTH)) = t := by
  rw [← jump_eq env t (topology_length_le env MAX_DEPTH t)]
  exact top_jump env t

theorem filterMap_exitEv_map (env : Env) (X : List Nat)
    (h : ∀ st, (env st).exit = true) :
    X.filterMap (exitEv env) = X.map event.exit := by
  induction X with
  | nil => rfl
  | cons a t ih => simp [exitEv, h a, ih]

theorem filterMap_enterEv_map (env : Env) (X : List Nat)
    (h : ∀ st, (env st).enter = true) :
    X.filterMap (enterEv env) = X.map event.enter := by
  induction X with
  | nil => rfl
  | cons a t ih => simp [enterEv, h a, ih]

theorem enter_not_mem_exitEv (env : Env) (X : List Nat) (s : Nat) :
    event.enter s ∉ X.filterMap (exitEv env) := by
  intro hmem
  obtain ⟨a, -, ha⟩ := List.mem_filterMap.1 hmem
  by_cases hx : (env a).exit <;> simp [exitEv, hx] at ha

theorem exit_not_mem_enterEv (env : Env) (X : List Nat) (s : Nat) :
    event.exit s ∉ X.filterMap (enterEv env) := by
  intro hmem
  obtain ⟨a, -, ha⟩ := List.mem_filterMap.1 hmem
  by_cases hx : (env a).enter <;> simp [enterEv, hx] at ha

/-! ### Claim theorems -/

/-- C5: for every machine, `goto(machine, top(machine))` is a no-op — it
returns the machine unchanged, records no callback, hits no push failure —
and `jump(m, s)` followed by `goto(m, s)` likewise invokes no callback, since
the top after a jump is already the jump target. -/
theorem C5_goto_top_noop :
    (∀ (env : Env) (m : infinite_state_machine),
      infinite_state_machine_goto env m (infinite_state_machine_top m)
        = (m, [], 0)) ∧
    (∀ (env : Env) (t : Option Nat),
      infinite_state_machine_goto env (infinite_state_machine_jump env t) t
        = (infinite_state_machine_jump env t, [], 0)) :=
  ⟨fun env m => goto_noop env m _ rfl,
   fun env t => goto_noop env _ t (top_jump env t).symm⟩

/-- C8: `jump` resets the machine exactly as `init` does (for an absent
target it equals `init` outright) and then writes the target's forward
topology — bounded by `MAX_DEPTH` — directly into the stack, with the depth
set to the number of states written.  The embedding of `jump` produces no
callback trace: the C function only calls `init` and the topology walk,
neither of which can invoke an enter or exit action. -/
theorem C8_jump_resets_then_writes (env : Env) (t : Option Nat) :
    infinite_state_machine_jump env t
      = machine_of_list (infinite_state_topology env t MAX_DEPTH)
    ∧ (infinite_state_machine_jump env t).depth
        = (infinite_state_topology env t MAX_DEPTH).length
    ∧ (infinite_state_topology env t MAX_DEPTH).length ≤ MAX_DEPTH
    ∧ infinite_state_machine_jump env none = infinite_state_machine_init :=
  ⟨jump_eq env t (topology_length_le env MAX_DEPTH t), jump_depth env t,
   topology_length_le env MAX_DEPTH t, rfl⟩

/-- C9: inside `goto` the capacity-failure branch of `push` is unreachable:
for every machine and target, the enter phase reports zero push failures,
so `goto` (which returns `void` in C) never observes a push error. -/
theorem C9_no_push_failure (env : Env) (m : infinite_state_machine)
    (t : Option Nat) :
    (infinite_state_machine_goto env m t).2.2 = 0 := by
  by_cases ht : t = infinite_state_machine_top m
  · rw [goto_noop env m t ht]
  · simp only [infinite_state_machine_goto, if_neg ht]
    have hjd : (infinite_state_machine_jump env t).depth ≤ MAX_DEPTH := by
      rw [jump_depth]
      exact topology_length_le env MAX_DEPTH t
    have hscan := scanAux_le m.states (infinite_state_machine_jump env t).states
      m.depth (infinite_state_machine_jump env t).depth m.depth 0
      (Nat.zero_le _) (Nat.zero_le _)
    have hex := exitsAux_depth env m.depth m
      (scanAux m.states (infinite_state_machine_jump env t).states
        m.depth (infinite_state_machine_jump env t).depth m.depth 0)
      hscan.1 (by omega)
    exact entersAux_fails env (infinite_state_machine_jump env t).states
      (infinite_state_machine_jump env t).depth hjd
      (infinite_state_machine_jump env t).depth
      (scanAux m.states (infinite_state_machine_jump env t).states
        m.depth (infinite_state_machine_jump env t).depth m.depth 0)
      _ hscan.2 (by omega) (by omega)

/-- C10: topology extraction is a total function (defined by structural
recursion on the depth budget, exactly mirroring the C recursion that
decreases `depth` by one per call, so it terminates for every starting state
and every environment, cyclic parent chains included), and the number `n` of
entries written — the offset of the returned cursor from the buffer start —
satisfies `0 ≤ n ≤ d`. -/
theorem C10_topology_terminates (env : Env) (os : Option Nat) (d : Nat) :
    (infinite_state_topology env os d).length ≤ d :=
  topology_length_le env d os

/-- C3: from any machine with a non-empty stack, `goto` with an absent
(`NULL`) target exits everything: the machine empties, the trace records the
exit callback of each popped state innermost-first (`L.reverse`), no enter
callback fires, and the final top is `none`. -/
theorem C3_absent_target_exits_all (env : Env) (L : List Nat) (hne : L ≠ [])
    (hL : L.length ≤ MAX_DEPTH) :
    infinite_state_machine_goto env (machine_of_list L) none
      = (machine_of_list [], L.reverse.filterMap (exitEv env), 0)
    ∧ infinite_state_machine_top
        (infinite_state_machine_goto env (machine_of_list L) none).1 = none
    ∧ ∀ s, event.enter s
        ∉ (infinite_state_machine_goto env (machine_of_list L) none).2.1 := by
  obtain ⟨a, ha⟩ := top_mol_ne_none L hne hL
  have hnet : (none : Option Nat)
      ≠ infinite_state_machine_top (machine_of_list L) := by
    rw [ha]
    exact fun h => Option.noConfusion h
  have hgoto := goto_mol env L none hL hnet
  rw [topology_none, commonLen_nil_right] at hgoto
  simp only [List.drop_zero, List.drop_nil, List.filterMap_nil,
    List.append_nil] at hgoto
  refine ⟨hgoto, ?_, ?_⟩
  · rw [hgoto]
    rfl
  · intro s
    rw [hgoto]
    exact enter_not_mem_exitEv env L.reverse s

/-- Witness for C3 at the test scenario of test/def.c: active path
`{d, e, f}` = `[0, 1, 2]`, absent target; exits recorded `[f, e, d]`. -/
theorem C3_witness :
    ([0, 1, 2] : List Nat) ≠ [] ∧ ([0, 1, 2] : List Nat).length ≤ MAX_DEPTH ∧
    (infinite_state_machine_goto envDEFG (machine_of_list [0, 1, 2]) none
      = (machine_of_list [],
         ([0, 1, 2] : List Nat).reverse.filterMap (exitEv envDEFG), 0)
    ∧ infinite_state_machine_top
        (infinite_state_machine_goto envDEFG
          (machine_of_list [0, 1, 2]) none).1 = none
    ∧ ∀ s, event.enter s
        ∉ (infinite_state_machine_goto envDEFG
            (machine_of_list [0, 1, 2]) none).2.1) :=
  ⟨by decide, by decide,
   C3_absent_target_exits_all envDEFG [0, 1, 2] (by decide) (by decide)⟩

/-- C2 counterexample: for the chain `0 ← 1 ← 2` and budget 2, the claim
predicts the written sequence is the most distant two ancestors (the
root-most end, `[0, 1]`); the code writes the nearest two (`[1, 2]`). -/
theorem C2_counterexample :
    infinite_state_topology envChain (some 2) 2 = [1, 2] ∧
    infinite_state_topology envChain (some 2) 2 ≠ [0, 1] := by decide

/-- C2 (amended): for every state whose parent chain is longer than the
budget `d` (the `d`-th iterated parent still exists), topology extraction
writes exactly `d` entries — the NEAREST `d` chain members (the leaf-most end
of the chain), in root-to-leaf order: the entry at offset `d - 1 - j` is the
`j`-th iterated parent of the starting state. -/
theorem C2_truncation_keeps_nearest (env : Env) (s : Nat) (d : Nat)
    (h : superChain env (some s) d ≠ none) :
    (infinite_state_topology env (some s) d).length = d ∧
    ∀ j < d, superChain env (some s) j
      = some ((infinite_state_topology env (some s) d).getD (d - 1 - j) 0) := by
  have hlen : (infinite_state_topology env (some s) d).length = d := by
    rcases Nat.eq_zero_or_pos d with rfl | hd
    · rfl
    · have h1 : superChain env (some s) (d - 1) ≠ none :=
        superChain_ne_none_of_le env (some s) d (d - 1) h (by omega)
      have h2 := topology_length_ge env (d - 1) (some s) d h1 (by omega)
      have h3 := topology_length_le env d (some s)
      omega
  refine ⟨hlen, ?_⟩
  intro j hj
  have := topology_getD env d (some s) j (by omega)
  rw [hlen] at this
  exact this

/-- Witness for C2 at the chain `0 ← 1 ← 2` with budget 2. -/
theorem C2_witness :
    superChain envChain (some 2) 2 ≠ none ∧
    ((infinite_state_topology envChain (some 2) 2).length = 2 ∧
     ∀ j < 2, superChain envChain (some 2) j
       = some ((infinite_state_topology envChain (some 2) 2).getD
           (2 - 1 - j) 0)) :=
  ⟨by decide, C2_truncation_keeps_nearest envChain 2 2 (by decide)⟩

/-- C1 counterexample: for the linear chain `0 ← 1 ← ⋯ ← 7` the forward
topology of state 7 has `MAX_DEPTH + 1 = 8` states.  The claim predicts
`goto` aborts with a capacity-exceeded signal; in fact the enter phase hits
no push failure (failure count 0), completes all its pushes, and leaves the
machine at the truncated 7-state path with `top = target`.  (`goto` returns
`void` in C, so no caller could receive a signal.) -/
theorem C1_counterexample :
    (infinite_state_machine_goto envChain infinite_state_machine_init
      (some 7)).2.2 = 0 ∧
    (infinite_state_machine_goto envChain infinite_state_machine_init
      (some 7)).1 = machine_of_list [1, 2, 3, 4, 5, 6, 7] ∧
    infinite_state_machine_top
      (infinite_state_machine_goto envChain infinite_state_machine_init
        (some 7)).1 = some 7 := by decide

/-- C1 (amended): the push in `goto`'s enter phase never hits the
`MAX_DEPTH` capacity bound, because the scratch topology is already
truncated to `MAX_DEPTH` by the topology budget.  A target whose chain has
`MAX_DEPTH + 1` or more states completes with no capacity signal (failure
count 0), at depth `MAX_DEPTH` with `top = target` (the root-most ancestors
silently dropped); a chain of exactly `MAX_DEPTH` states succeeds fully,
with every chain member active. -/
theorem C1_capacity_boundary (env : Env) (s : Nat) :
    (superChain env (some s) MAX_DEPTH ≠ none →
      (infinite_state_machine_goto env infinite_state_machine_init
        (some s)).2.2 = 0 ∧
      (infinite_state_machine_goto env infinite_state_machine_init
        (some s)).1.depth = MAX_DEPTH ∧
      infinite_state_machine_top
        (infinite_state_machine_goto env infinite_state_machine_init
          (some s)).1 = some s) ∧
    (superChain env (some s) MAX_DEPTH = none →
      superChain env (some s) (MAX_DEPTH - 1) ≠ none →
      (infinite_state_machine_goto env infinite_state_machine_init
        (some s)).2.2 = 0 ∧
      (infinite_state_machine_goto env infinite_state_machine_init
        (some s)).1.depth = MAX_DEPTH ∧
      infinite_state_machine_top
        (infinite_state_machine_goto env infinite_state_machine_init
          (some s)).1 = some s ∧
      ∀ j a, superChain env (some s) j = some a →
        infinite_state_machine_in
          (some (infinite_state_machine_goto env infinite_state_machine_init
            (some s)).1) (some a) = 1) := by
  have hT7 := topology_length_le env MAX_DEPTH (some s)
  have hnet : (some s : Option Nat)
      ≠ infinite_state_machine_top infinite_state_machine_init := by
    intro h
    exact Option.noConfusion h
  have hgoto := goto_mol env [] (some s) (by decide) (by rw [← init_eq_mol]; exact hnet)
  rw [← init_eq_mol] at hgoto
  rw [commonLen_nil_left] at hgoto
  constructor
  · intro h
    have h6 : superChain env (some s) (MAX_DEPTH - 1) ≠ none :=
      superChain_ne_none_of_le env (some s) MAX_DEPTH (MAX_DEPTH - 1) h
        (by decide)
    have hge := topology_length_ge env (MAX_DEPTH - 1) (some s) MAX_DEPTH h6
      (by decide)
    refine ⟨by rw [hgoto], ?_, ?_⟩
    · rw [hgoto]
      show (machine_of_list _).depth = MAX_DEPTH
      rw [mol_depth]
      have hMD : MAX_DEPTH = 7 := rfl
      omega
    · rw [hgoto]
      exact top_mol_topology env (some s)
  · intro hfits h6
    have hge := topology_length_ge env (MAX_DEPTH - 1) (some s) MAX_DEPTH h6
      (by decide)
    refine ⟨by rw [hgoto], ?_, ?_, ?_⟩
    · rw [hgoto]
      show (machine_of_list _).depth = MAX_DEPTH
      rw [mol_depth]
      have hMD : MAX_DEPTH = 7 := rfl
      omega
    · rw [hgoto]
      exact top_mol_topology env (some s)
    · intro j a hja
      have hj7 : j < MAX_DEPTH := by
        by_contra hge7
        rw [superChain_none_of_ge env (some s) MAX_DEPTH hfits j (by omega)]
          at hja
        exact Option.noConfusion hja
      have hmem := mem_topology_of_superChain env s MAX_DEPTH j a hja hj7
      rw [hgoto]
      show infinite_state_machine_in
        (some (machine_of_list
          (infinite_state_topology env (some s) MAX_DEPTH))) (some a) = 1
      rw [in_mol _ a hT7, if_pos hmem]

/-- Witness for C1: in the linear chain environment, state 7 has an 8-state
topology (completes, truncated, no failure) and state 6 has an exactly
7-state topology (completes fully; its root, state 0, is active). -/
theorem C1_witness :
    ((infinite_state_machine_goto envChain infinite_state_machine_init
        (some 7)).2.2 = 0 ∧
     (infinite_state_machine_goto envChain infinite_state_machine_init
        (some 7)).1.depth = MAX_DEPTH ∧
     infinite_state_machine_top
        (infinite_state_machine_goto envChain infinite_state_machine_init
          (some 7)).1 = some 7) ∧
    ((infinite_state_machine_goto envChain infinite_state_machine_init
        (some 6)).2.2 = 0 ∧
     (infinite_state_machine_goto envChain infinite_state_machine_init
        (some 6)).1.depth = MAX_DEPTH ∧
     infinite_state_machine_top
        (infinite_state_machine_goto envChain infinite_state_machine_init
          (some 6)).1 = some 6 ∧
     infinite_state_machine_in
        (some (infinite_state_machine_goto envChain
          infinite_state_machine_init (some 6)).1) (some 0) = 1) := by
  refine ⟨(C1_capacity_boundary envChain 7).1 (by decide), ?_⟩
  obtain ⟨h1, h2, h3, h4⟩ :=
    (C1_capacity_boundary envChain 6).2 (by decide) (by decide)
  exact ⟨h1, h2, h3, h4 6 0 (by decide)⟩

/-- C6: for a state `s` whose forward topology fits within `MAX_DEPTH` (the
parent chain ends within the bound), `goto` from any at-rest machine (one
whose stack is the forward topology of some state, as every machine produced
by `init`/`jump`/`goto` is) leaves the stack exactly the forward topology of
`s`, with `top = s` and `in` returning 1 for `s` and every one of its
ancestors. -/
theorem C6_topology_fidelity (env : Env) (s : Nat) (t0 : Option Nat)
    (hfits : superChain env (some s) MAX_DEPTH = none) :
    (infinite_state_machine_goto env
        (machine_of_list (infinite_state_topology env t0 MAX_DEPTH))
        (some s)).1
      = machine_of_list (infinite_state_topology env (some s) MAX_DEPTH)
    ∧ infinite_state_machine_top
        (infinite_state_machine_goto env
          (machine_of_list (infinite_state_topology env t0 MAX_DEPTH))
          (some s)).1 = some s
    ∧ ∀ j a, superChain env (some s) j = some a →
        infinite_state_machine_in
          (some (infinite_state_machine_goto env
            (machine_of_list (infinite_state_topology env t0 MAX_DEPTH))
            (some s)).1) (some a) = 1 := by
  have hT7 := topology_length_le env MAX_DEPTH (some s)
  have hL7 := topology_length_le env MAX_DEPTH t0
  have hmachine : (infinite_state_machine_goto env
      (machine_of_list (infinite_state_topology env t0 MAX_DEPTH))
      (some s)).1
      = machine_of_list (infinite_state_topology env (some s) MAX_DEPTH) := by
    by_cases ht : (some s : Option Nat) = infinite_state_machine_top
        (machine_of_list (infinite_state_topology env t0 MAX_DEPTH))
    · rw [goto_noop env _ _ ht]
      have ht0 : t0 = some s := by
        rw [top_mol_topology env t0] at ht
        exact ht.symm
      rw [ht0]
    · rw [goto_mol env _ (some s) hL7 ht]
  refine ⟨hmachine, ?_, ?_⟩
  · rw [hmachine]
    exact top_mol_topology env (some s)
  · intro j a hja
    have hj7 : j < MAX_DEPTH := by
      by_contra hge7
      rw [superChain_none_of_ge env (some s) MAX_DEPTH hfits j (by omega)]
        at hja
      exact Option.noConfusion hja
    have hmem := mem_topology_of_superChain env s MAX_DEPTH j a hja hj7
    rw [hmachine, in_mol _ a hT7, if_pos hmem]

/-- Witness for C6: in the test topology, `f` (= 2) fits within the bound;
from the empty machine (`t0` absent) the transition reaches exactly `f`'s
topology `[d, e, f]`, `top = f`, and both ancestors `e` and `d` are active. -/
theorem C6_witness :
    superChain envDEFG (some 2) MAX_DEPTH = none ∧
    ((infinite_state_machine_goto envDEFG
        (machine_of_list (infinite_state_topology envDEFG none MAX_DEPTH))
        (some 2)).1
      = machine_of_list (infinite_state_topology envDEFG (some 2) MAX_DEPTH)
    ∧ infinite_state_machine_top
        (infinite_state_machine_goto envDEFG
          (machine_of_list (infinite_state_topology envDEFG none MAX_DEPTH))
          (some 2)).1 = some 2
    ∧ infinite_state_machine_in
        (some (infinite_state_machine_goto envDEFG
          (machine_of_list (infinite_state_topology envDEFG none MAX_DEPTH))
          (some 2)).1) (some 0) = 1) := by
  refine ⟨by decide, ?_⟩
  obtain ⟨h1, h2, h3⟩ := C6_topology_fidelity envDEFG 2 none (by decide)
  exact ⟨h1, h2, h3 2 0 (by decide)⟩

/-- C4: LCA minimality and callback order.  For a transition from an at-rest
machine (stack = the first target's forward topology `L`) to a target with
forward topology `T`, with `k` the length of the longest common prefix of
`L` and `T` (the prefixes of length `k` agree), and all callbacks present:
the trace is exactly the exits of `L`'s suffix beyond `k` innermost-first
followed by the enters of `T`'s suffix beyond `k` outermost-first; so
exactly `depth_before - k` states are exited and `len(T) - k` entered, and
(for duplicate-free topologies) no shared-prefix state receives any call. -/
theorem C4_lca_minimality (env : Env) (t0 t : Option Nat)
    (L T : List Nat) (k : Nat)
    (hL : L = infinite_state_topology env t0 MAX_DEPTH)
    (hT : T = infinite_state_topology env t MAX_DEPTH)
    (hk : k = commonLen L T)
    (henv : ∀ st, (env st).enter = true ∧ (env st).exit = true)
    (hNL : L.Nodup) (hNT : T.Nodup) :
    (infinite_state_machine_goto env (machine_of_list L) t).2.1
      = (L.drop k).reverse.map event.exit ++ (T.drop k).map event.enter
    ∧ ((L.drop k).reverse.map event.exit).length
        = (machine_of_list L).depth - k
    ∧ ((T.drop k).map event.enter).length = T.length - k
    ∧ L.take k = T.take k
    ∧ ∀ st ∈ L.take k,
        event.exit st
          ∉ (infinite_state_machine_goto env (machine_of_list L) t).2.1
        ∧ event.enter st
          ∉ (infinite_state_machine_goto env (machine_of_list L) t).2.1 := by
  have hL7 : L.length ≤ MAX_DEPTH := by
    rw [hL]
    exact topology_length_le env MAX_DEPTH t0
  have hkL : k ≤ L.length := hk ▸ commonLen_le_left L T
  have hkT : k ≤ T.length := hk ▸ commonLen_le_right L T
  have htake : L.take k = T.take k := hk ▸ commonLen_take_eq L T
  have htrace : (infinite_state_machine_goto env (machine_of_list L) t).2.1
      = (L.drop k).reverse.map event.exit ++ (T.drop k).map event.enter := by
    by_cases ht : t = infinite_state_machine_top (machine_of_list L)
    · have ht0 : t = t0 := by
        rw [hL, top_mol_topology env t0] at ht
        exact ht
      have hTL : T = L := by rw [hT, ht0, ← hL]
      have hkk : k = L.length := by
        rw [hk, hTL, commonLen_self]
      rw [goto_noop env _ _ ht]
      rw [hkk, hTL, List.drop_length]
      simp
    · rw [goto_mol env L t hL7 ht, ← hT, ← hk]
      show (L.drop k).reverse.filterMap (exitEv env)
          ++ (T.drop k).filterMap (enterEv env) = _
      rw [filterMap_exitEv_map env _ (fun st => (henv st).2),
        filterMap_enterEv_map env _ (fun st => (henv st).1)]
  have hdisjL : List.Disjoint (L.take k) (L.drop k) := by
    have hnd := hNL
    rw [← List.take_append_drop k L] at hnd
    exact ((List.nodup_append.1 hnd)).2.2
  have hdisjT : List.Disjoint (T.take k) (T.drop k) := by
    have hnd := hNT
    rw [← List.take_append_drop k T] at hnd
    exact ((List.nodup_append.1 hnd)).2.2
  refine ⟨htrace, by simp [mol_depth], by simp, htake, ?_⟩
  intro st hst
  constructor
  · intro hmem
    rw [htrace] at hmem
    rcases List.mem_append.1 hmem with hA | hB
    · obtain ⟨x, hx, hxe⟩ := List.mem_map.1 hA
      cases hxe
      exact hdisjL hst (List.mem_reverse.1 hx)
    · obtain ⟨x, -, hxe⟩ := List.mem_map.1 hB
      exact event.noConfusion hxe
  · intro hmem
    rw [htrace] at hmem
    rcases List.mem_append.1 hmem with hA | hB
    · obtain ⟨x, -, hxe⟩ := List.mem_map.1 hA
      exact event.noConfusion hxe
    · obtain ⟨x, hx, hxe⟩ := List.mem_map.1 hB
      cases hxe
      exact hdisjT (htake ▸ hst) hx

/-- Witness for C4 at the test/def.c scenario: from `f` (topology
`[d, e, f]` = `[0, 1, 2]`) to `g` (topology `[d, g]` = `[0, 3]`), shared
prefix length 1; exits `[f, e]`, enters `[g]`, `d` untouched. -/
theorem C4_witness :
    ([0, 1, 2] : List Nat)
      = infinite_state_topology envDEFG (some 2) MAX_DEPTH ∧
    ([0, 3] : List Nat)
      = infinite_state_topology envDEFG (some 3) MAX_DEPTH ∧
    (1 : Nat) = commonLen [0, 1, 2] [0, 3] ∧
    ((infinite_state_machine_goto envDEFG
        (machine_of_list [0, 1, 2]) (some 3)).2.1
      = (([0, 1, 2] : List Nat).drop 1).reverse.map event.exit
          ++ (([0, 3] : List Nat).drop 1).map event.enter
    ∧ ((([0, 1, 2] : List Nat).drop 1).reverse.map event.exit).length
        = (machine_of_list [0, 1, 2]).depth - 1
    ∧ ((([0, 3] : List Nat).drop 1).map event.enter).length
        = ([0, 3] : List Nat).length - 1
    ∧ ([0, 1, 2] : List Nat).take 1 = ([0, 3] : List Nat).take 1
    ∧ (event.exit 0
        ∉ (infinite_state_machine_goto envDEFG
            (machine_of_list [0, 1, 2]) (some 3)).2.1
      ∧ event.enter 0
        ∉ (infinite_state_machine_goto envDEFG
            (machine_of_list [0, 1, 2]) (some 3)).2.1)) := by
  have henv : ∀ st, (envDEFG st).enter = true ∧ (envDEFG st).exit = true := by
    intro st
    rcases st with _ | _ | _ | _ | st <;> exact ⟨rfl, rfl⟩
  obtain ⟨h1, h2, h3, h4, h5⟩ := C4_lca_minimality envDEFG (some 2) (some 3)
    [0, 1, 2] [0, 3] 1 (by decide) (by decide) (by decide) henv
    (by decide) (by decide)
  exact ⟨by decide, by decide, by decide, h1, h2, h3, h4, h5 0 (by decide)⟩

/-- C7: the public operations preserve the machine invariant: the state
array keeps its fixed `MAX_DEPTH` size, `0 ≤ depth ≤ MAX_DEPTH` (`depth` is a
`Nat` in the embedding, so non-negativity is intrinsic), every slot at index
`≥ depth` is cleared, and at rest adjacent occupied slots are linked by the
parent relation.  `init` and `jump` establish the invariant outright and
`goto` preserves it; `in` and `top` are pure queries — in the embedding they
do not return a machine at all, so they cannot mutate one. -/
theorem C7_invariant_preservation (env : Env) :
    wfm env infinite_state_machine_init
    ∧ (∀ t, wfm env (infinite_state_machine_jump env t))
    ∧ (∀ m t, wfm env m →
        wfm env (infinite_state_machine_goto env m t).1) := by
  refine ⟨?_, ?_, ?_⟩
  · rw [init_eq_mol]
    exact wfm_mol env [] (by decide) (fun i hi => absurd hi (by simp))
  · intro t
    rw [jump_eq env t (topology_length_le env MAX_DEPTH t)]
    exact wfm_mol env _ (topology_length_le env MAX_DEPTH t)
      (topology_chainP env MAX_DEPTH t)
  · intro m t hm
    by_cases ht : t = infinite_state_machine_top m
    · rw [goto_noop env m t ht]
      exact hm
    · rcases wfm_shape env m hm with ⟨L, hL7, rfl⟩ | rfl
      · rw [goto_mol env L t hL7 ht]
        exact wfm_mol env _ (topology_length_le env MAX_DEPTH t)
          (topology_chainP env MAX_DEPTH t)
      · cases t with
        | none => exact absurd top_degen.symm ht
        | some s =>
            rw [goto_degen env s]
            exact wfm_mol env _ (topology_length_le env MAX_DEPTH (some s))
              (topology_chainP env MAX_DEPTH (some s))

/-- Witness for C7: a concrete well-formed machine stays well-formed across
a `goto`. -/
theorem C7_witness :
    wfm envDEFG (machine_of_list [0, 1])
    ∧ wfm envDEFG (infinite_state_machine_goto envDEFG
        (machine_of_list [0, 1]) (some 3)).1 :=
  ⟨by decide,
   (C7_invariant_preservation envDEFG).2.2 (machine_of_list [0, 1]) (some 3)
     (by decide)⟩
